import Mathlib

/-!
# Verification of the `mkmover` agent-based simulation kernel

Shallow embedding of the repository `dwu0042/mkmover` (files
`src/mkmover/abm.py`, `src/mkmover/markov_mover.py`, `src/abm_skele.py`)
and proofs about the claims of its specification.

Modelling conventions:
* Python floats are modelled as rationals (`ℚ`); the arithmetic performed by
  the code (sums, products, comparisons) is exact on the values it computes.
* Python dicts are modelled as association lists (`List (String × β)`) with
  Python's `dict` semantics: `d[k] = v` replaces the value at the first
  occurrence of `k` (keeping its position) or appends a fresh entry;
  `d[k]` lookup returns the value at the first occurrence, and a `KeyError`
  is modelled by `Option`.
* Python sets (`Location.occupants`, `event_map` values) are modelled as
  `Finset`.
* Randomness is made explicit: `random.random()` becomes a parameter
  `r : ℚ` with the contract `0 ≤ r < 1`, and `random.sample(targets, k=2)`
  becomes a parameter pair `(c1, c2)` with the contract that both are
  members of `targets` and distinct.
* Fallible operations (Python exceptions: `KeyError`, `IndexError`) return
  `Option`; `none` is the observable "the call raised".
-/

namespace Mkmover

/-! ## Association lists with Python dict semantics -/

/-- Lookup of a key in an association list: value at the first occurrence of
the key, `none` when absent (Python `d[k]` raising `KeyError`, or
`d.get(k, None)` returning `None`). -/
def alookup {β : Type} : List (String × β) → String → Option β
  | [], _ => none
  | (k, v) :: rest, key => if key = k then some v else alookup rest key

/-- Python `d[k] = v`: replace the value at the first occurrence of `k`
(keeping its position), or append a fresh entry when `k` is absent. -/
def aset {β : Type} : List (String × β) → String → β → List (String × β)
  | [], key, val => [(key, val)]
  | (k, v) :: rest, key, val =>
      if key = k then (k, val) :: rest else (k, v) :: aset rest key val

/-- Apply `f` to the value stored at `key`, if present; identity otherwise.
Used to model in-place mutation of an object fetched from a dict. -/
def amodify {β : Type} (f : β → β) : List (String × β) → String → List (String × β)
  | [], _ => []
  | (k, v) :: rest, key =>
      if key = k then (k, f v) :: rest else (k, v) :: amodify f rest key

@[simp] theorem alookup_nil {β : Type} (key : String) :
    alookup ([] : List (String × β)) key = none := rfl

@[simp] theorem alookup_cons {β : Type} (k : String) (v : β) (rest : List (String × β))
    (key : String) :
    alookup ((k, v) :: rest) key = if key = k then some v else alookup rest key := rfl

theorem alookup_aset {β : Type} (m : List (String × β)) (k : String) (v : β)
    (key : String) :
    alookup (aset m k v) key = if key = k then some v else alookup m key := by
  induction m with
  | nil => by_cases h : key = k <;> simp [aset, alookup, h]
  | cons hd tl ih =>
    obtain ⟨k0, v0⟩ := hd
    by_cases h1 : k = k0
    · by_cases h2 : key = k0 <;> simp [aset, alookup, h1, h2]
    · by_cases h2 : key = k0
      · simp [aset, alookup, h1, h2]
        rw [if_neg (fun h => h1 h.symm)]
      · simp [aset, alookup, h1, h2, ih]

theorem alookup_amodify {β : Type} (f : β → β) (m : List (String × β)) (k : String)
    (key : String) :
    alookup (amodify f m k) key =
      if key = k then (alookup m key).map f else alookup m key := by
  induction m with
  | nil => by_cases h : key = k <;> simp [amodify, alookup, h]
  | cons hd tl ih =>
    obtain ⟨k0, v0⟩ := hd
    by_cases h1 : k = k0
    · by_cases h2 : key = k0 <;> simp [amodify, alookup, h1, h2]
    · by_cases h2 : key = k0
      · simp [amodify, alookup, h1, h2]
        rw [if_neg (fun h => h1 h.symm)]
      · simp [amodify, alookup, h1, h2, ih]

@[simp] theorem alookup_aset_self {β : Type} (m : List (String × β)) (k : String) (v : β) :
    alookup (aset m k v) k = some v := by simp [alookup_aset]

theorem alookup_aset_ne {β : Type} (m : List (String × β)) (k : String) (v : β)
    (key : String) (h : key ≠ k) : alookup (aset m k v) key = alookup m key := by
  simp [alookup_aset, h]

/-! ## `CompiledOutcomes` — the weighted sampler
(`src/mkmover/markov_mover.py` lines 7–29; identical code in
`src/abm_skele.py` lines 49–71). -/

/-- The compiled weighted-outcome table: parallel lists of outcomes and
cumulative weights, plus the running total (`markov_mover.py` lines 8–14). -/
structure CompiledOutcomes where
  outcomes : List String
  cdf : List ℚ
  total : ℚ
  deriving DecidableEq

/-- The body of `CompiledOutcomes.compile` (`markov_mover.py` lines 16–21):
`for k, v in pdict.items(): outcomes.append(k); total += v; cdf.append(total)`,
folded over the insertion-ordered items of the dict, starting from the state
the constructor leaves (`self.outcomes = []; self.cdf = []; self.total = 0`). -/
def CompiledOutcomes.compileFrom (c : CompiledOutcomes) :
    List (String × ℚ) → CompiledOutcomes
  | [] => c
  | (k, v) :: rest =>
      compileFrom ⟨c.outcomes ++ [k], c.cdf ++ [c.total + v], c.total + v⟩ rest

/-- `CompiledOutcomes(data)`: construct from empty state and run `compile`. -/
def CompiledOutcomes.compile (pdict : List (String × ℚ)) : CompiledOutcomes :=
  CompiledOutcomes.compileFrom ⟨[], [], 0⟩ pdict

/-- One step of Python's `bisect.bisect` (= `bisect_right`) binary-search
loop, with explicit fuel (each iteration strictly shrinks `hi - lo`, so
`l.length + 1` units of fuel always suffice for the initial call):

    while lo < hi:
        mid = (lo + hi) // 2
        if x < a[mid]: hi = mid
        else: lo = mid + 1
    return lo
-/
def bisectGo (l : List ℚ) (x : ℚ) : Nat → Nat → Nat → Nat
  | 0, lo, _ => lo
  | fuel + 1, lo, hi =>
      if lo < hi then
        if x < l.getD ((lo + hi) / 2) 0 then bisectGo l x fuel lo ((lo + hi) / 2)
        else bisectGo l x fuel ((lo + hi) / 2 + 1) hi
      else lo

/-- Python `bisect.bisect(a, x)` (right bisection over the whole list). -/
def bisect (l : List ℚ) (x : ℚ) : Nat :=
  bisectGo l x (l.length + 1) 0 l.length

/-- `CompiledOutcomes.weighted_choice` (`markov_mover.py` lines 23–29):
`x = random.random() * self.total; i = bisect(self.cdf, x); return
self.outcomes[i]`.  The uniform draw `random.random()` is the explicit
parameter `r` (contract: `0 ≤ r < 1`); an `IndexError` from
`self.outcomes[i]` is `none`. -/
def CompiledOutcomes.weightedChoiceAt (c : CompiledOutcomes) (r : ℚ) : Option String :=
  let x := r * c.total
  c.outcomes.get? (bisect c.cdf x)

/-! ### Correctness of the binary search on sorted lists -/

theorem bisectGo_spec (l : List ℚ) (x : ℚ) (hs : l.Sorted (· ≤ ·)) :
    ∀ fuel lo hi, hi - lo ≤ fuel → lo ≤ hi → hi ≤ l.length →
    (∀ j, j < lo → l.getD j 0 ≤ x) →
    (∀ j, hi ≤ j → j < l.length → x < l.getD j 0) →
    lo ≤ bisectGo l x fuel lo hi ∧ bisectGo l x fuel lo hi ≤ hi ∧
      (∀ j, j < bisectGo l x fuel lo hi → l.getD j 0 ≤ x) ∧
      (∀ j, bisectGo l x fuel lo hi ≤ j → j < l.length → x < l.getD j 0) := by
  intro fuel
  induction fuel with
  | zero =>
    intro lo hi hfuel hlh hhl hlow hhigh
    have : lo = hi := by omega
    subst this
    exact ⟨le_refl _, le_refl _, hlow, fun j hj hjl => hhigh j hj hjl⟩
  | succ fuel ih =>
    intro lo hi hfuel hlh hhl hlow hhigh
    by_cases hcond : lo < hi
    · have hmid1 : lo ≤ (lo + hi) / 2 := by omega
      have hmid2 : (lo + hi) / 2 < hi := by omega
      by_cases hx : x < l.getD ((lo + hi) / 2) 0
      · have step : bisectGo l x (fuel + 1) lo hi = bisectGo l x fuel lo ((lo + hi) / 2) := by
          simp only [bisectGo]
          rw [if_pos hcond, if_pos hx]
        rw [step]
        have hrec := ih lo ((lo + hi) / 2) (by omega) hmid1 (by omega) hlow ?_
        · exact ⟨hrec.1, le_trans hrec.2.1 (by omega), hrec.2.2⟩
        intro j hj hjl
        have hml : (lo + hi) / 2 < l.length := by omega
        have hmono : l.getD ((lo + hi) / 2) 0 ≤ l.getD j 0 := by
          rcases Nat.eq_or_lt_of_le hj with h | h
          · rw [h]
          · have := List.Sorted.rel_get_of_lt hs
              (a := ⟨(lo + hi) / 2, hml⟩) (b := ⟨j, hjl⟩) (by simpa using h)
            rwa [List.getD_eq_get l 0 hml, List.getD_eq_get l 0 hjl]
        exact lt_of_lt_of_le hx hmono
      · have step : bisectGo l x (fuel + 1) lo hi = bisectGo l x fuel ((lo + hi) / 2 + 1) hi := by
          simp only [bisectGo]
          rw [if_pos hcond, if_neg hx]
        rw [step]
        have hrec := ih ((lo + hi) / 2 + 1) hi (by omega) (by omega) hhl ?_ hhigh
        · exact ⟨le_trans (by omega) hrec.1, hrec.2⟩
        intro j hj
        have hml : (lo + hi) / 2 < l.length := by omega
        by_cases hjlo : j < lo
        · exact hlow j hjlo
        · have hjm : j ≤ (lo + hi) / 2 := by omega
          have hjl : j < l.length := by omega
          have hmono : l.getD j 0 ≤ l.getD ((lo + hi) / 2) 0 := by
            rcases Nat.eq_or_lt_of_le hjm with h | h
            · rw [h]
            · have := List.Sorted.rel_get_of_lt hs
                (a := ⟨j, hjl⟩) (b := ⟨(lo + hi) / 2, hml⟩) (by simpa using h)
              rwa [List.getD_eq_get l 0 hjl, List.getD_eq_get l 0 hml]
          exact le_trans hmono (not_lt.mp hx)
    · have : lo = hi := by omega
      subst this
      have step : bisectGo l x (fuel + 1) lo lo = lo := by
        simp only [bisectGo]
        rw [if_neg hcond]
      rw [step]
      exact ⟨le_refl _, le_refl _, hlow, fun j hj hjl => hhigh j hj hjl⟩

/-- On a sorted list, Python's `bisect_right` returns an index `i ≤ length`
such that every element strictly before `i` is `≤ x` and the element at `i`
(when it exists) is `> x` — i.e. `i` is the least index whose element
exceeds `x`. -/
theorem bisect_spec (l : List ℚ) (x : ℚ) (hs : l.Sorted (· ≤ ·)) :
    bisect l x ≤ l.length ∧
      (∀ j, j < bisect l x → l.getD j 0 ≤ x) ∧
      (∀ j, bisect l x ≤ j → j < l.length → x < l.getD j 0) := by
  have h := bisectGo_spec l x hs (l.length + 1) 0 l.length (by omega) (by omega)
    (le_refl _) (fun j hj => absurd hj (Nat.not_lt_zero j)) (fun j hj hjl => absurd hjl (by omega))
  exact ⟨h.2.1, h.2.2.1, h.2.2.2⟩

/-! ### Structure of the compiled table -/

theorem compileFrom_outcomes (p : List (String × ℚ)) :
    ∀ c : CompiledOutcomes,
      (CompiledOutcomes.compileFrom c p).outcomes = c.outcomes ++ p.map Prod.fst := by
  induction p with
  | nil => intro c; simp [CompiledOutcomes.compileFrom]
  | cons hd tl ih =>
    intro c
    obtain ⟨k, v⟩ := hd
    simp [CompiledOutcomes.compileFrom, ih]

theorem compileFrom_total (p : List (String × ℚ)) :
    ∀ c : CompiledOutcomes,
      (CompiledOutcomes.compileFrom c p).total = c.total + (p.map Prod.snd).sum := by
  induction p with
  | nil => intro c; simp [CompiledOutcomes.compileFrom]
  | cons hd tl ih =>
    intro c
    obtain ⟨k, v⟩ := hd
    simp [CompiledOutcomes.compileFrom, ih]
    ring

theorem compileFrom_cdf_length (p : List (String × ℚ)) :
    ∀ c : CompiledOutcomes,
      (CompiledOutcomes.compileFrom c p).cdf.length = c.cdf.length + p.length := by
  induction p with
  | nil => intro c; simp [CompiledOutcomes.compileFrom]
  | cons hd tl ih =>
    intro c
    obtain ⟨k, v⟩ := hd
    simp [CompiledOutcomes.compileFrom, ih]
    omega

/-- Invariant carried through the compile loop: if every weight is
non-negative, then the cdf stays sorted, its entries stay within
`[0, total]`, and the running total stays non-negative. -/
theorem compileFrom_cdf_bounds (p : List (String × ℚ))
    (hw : ∀ w ∈ p.map Prod.snd, 0 ≤ w) :
    ∀ c : CompiledOutcomes, c.cdf.Sorted (· ≤ ·) → 0 ≤ c.total →
      (∀ y ∈ c.cdf, 0 ≤ y ∧ y ≤ c.total) →
      ((CompiledOutcomes.compileFrom c p).cdf.Sorted (· ≤ ·) ∧
        0 ≤ (CompiledOutcomes.compileFrom c p).total ∧
        (∀ y ∈ (CompiledOutcomes.compileFrom c p).cdf,
          0 ≤ y ∧ y ≤ (CompiledOutcomes.compileFrom c p).total)) := by
  induction p with
  | nil => intro c hsort htot hbound; exact ⟨hsort, htot, hbound⟩
  | cons hd tl ih =>
    obtain ⟨k, v⟩ := hd
    have hv : 0 ≤ v := hw v (by simp)
    have hw' : ∀ w ∈ tl.map Prod.snd, 0 ≤ w := fun w hmem => hw w (by simp [hmem])
    intro c hsort htot hbound
    refine ih hw' _ ?_ ?_ ?_
    · show (c.cdf ++ [c.total + v]).Pairwise (· ≤ ·)
      rw [List.pairwise_append]
      refine ⟨hsort, by simp, ?_⟩
      intro a ha b hb
      simp only [List.mem_singleton] at hb
      subst hb
      have := (hbound a ha).2
      linarith
    · show 0 ≤ c.total + v
      linarith
    · intro y hy
      simp only [List.mem_append, List.mem_singleton] at hy
      show 0 ≤ y ∧ y ≤ c.total + v
      rcases hy with hy | hy
      · obtain ⟨h0, h1⟩ := hbound y hy
        exact ⟨h0, by linarith⟩
      · subst hy
        exact ⟨by linarith, le_refl _⟩

/-- Last entry of the cdf is the running total (when any entries exist). -/
theorem compileFrom_cdf_getLast (p : List (String × ℚ)) :
    ∀ c : CompiledOutcomes,
      (c.cdf = [] ∨ c.cdf.getLast? = some c.total) →
      ((CompiledOutcomes.compileFrom c p).cdf = [] ∨
        (CompiledOutcomes.compileFrom c p).cdf.getLast? =
          some (CompiledOutcomes.compileFrom c p).total) := by
  induction p with
  | nil => intro c h; exact h
  | cons hd tl ih =>
    intro c h
    obtain ⟨k, v⟩ := hd
    refine ih _ (Or.inr ?_)
    simp [List.getLast?_append]

/-- The cdf of a freshly compiled non-negative table is sorted. -/
theorem compile_cdf_sorted (p : List (String × ℚ))
    (hw : ∀ w ∈ p.map Prod.snd, 0 ≤ w) :
    (CompiledOutcomes.compile p).cdf.Sorted (· ≤ ·) :=
  (compileFrom_cdf_bounds p hw ⟨[], [], 0⟩ (by simp) (le_refl 0) (by simp)).1

theorem compile_cdf_nonneg (p : List (String × ℚ))
    (hw : ∀ w ∈ p.map Prod.snd, 0 ≤ w) :
    ∀ y ∈ (CompiledOutcomes.compile p).cdf,
      0 ≤ y ∧ y ≤ (CompiledOutcomes.compile p).total :=
  (compileFrom_cdf_bounds p hw ⟨[], [], 0⟩ (by simp) (le_refl 0) (by simp)).2.2

theorem compile_total (p : List (String × ℚ)) :
    (CompiledOutcomes.compile p).total = (p.map Prod.snd).sum := by
  have := compileFrom_total p ⟨[], [], 0⟩
  simpa [CompiledOutcomes.compile] using this

theorem compile_cdf_length (p : List (String × ℚ)) :
    (CompiledOutcomes.compile p).cdf.length = p.length := by
  have := compileFrom_cdf_length p ⟨[], [], 0⟩
  simpa [CompiledOutcomes.compile] using this

theorem compile_outcomes (p : List (String × ℚ)) :
    (CompiledOutcomes.compile p).outcomes = p.map Prod.fst := by
  have := compileFrom_outcomes p ⟨[], [], 0⟩
  simpa [CompiledOutcomes.compile] using this

theorem compile_cdf_getLast (p : List (String × ℚ)) :
    (CompiledOutcomes.compile p).cdf = [] ∨
      (CompiledOutcomes.compile p).cdf.getLast? =
        some (CompiledOutcomes.compile p).total :=
  compileFrom_cdf_getLast p ⟨[], [], 0⟩ (Or.inl rfl)

/-- If `x` is strictly below the total of a compiled non-negative table,
then the bisection index is in range (no `IndexError`). -/
theorem bisect_lt_length_of_lt_total (p : List (String × ℚ))
    (hw : ∀ w ∈ p.map Prod.snd, 0 ≤ w)
    (x : ℚ) (hx : x < (CompiledOutcomes.compile p).total)
    (hpos : 0 < (CompiledOutcomes.compile p).total) :
    bisect (CompiledOutcomes.compile p).cdf x <
      (CompiledOutcomes.compile p).cdf.length := by
  set c := CompiledOutcomes.compile p with hc
  have hsorted : c.cdf.Sorted (· ≤ ·) := compile_cdf_sorted p hw
  have hspec := bisect_spec c.cdf x hsorted
  have hne : c.cdf ≠ [] := by
    intro hnil
    have hlen := compile_cdf_length p
    rw [← hc, hnil] at hlen
    have hp : p = [] := List.length_eq_zero.mp hlen.symm
    rw [hc, hp] at hpos
    simp [CompiledOutcomes.compile, CompiledOutcomes.compileFrom] at hpos
  have hlast : c.cdf.getLast? = some c.total := by
    rcases compile_cdf_getLast p with h | h
    · exact absurd h hne
    · exact h
  rcases Nat.lt_or_ge (bisect c.cdf x) c.cdf.length with h | h
  · exact h
  · exfalso
    have hlen0 : 0 < c.cdf.length := List.length_pos.mpr hne
    have hlastD : c.cdf.getD (c.cdf.length - 1) 0 = c.total := by
      rw [List.getD_eq_getElem?_getD, ← List.getLast?_eq_getElem?, hlast]
      rfl
    have hle : c.cdf.getD (c.cdf.length - 1) 0 ≤ x :=
      hspec.2.1 (c.cdf.length - 1) (by omega)
    rw [hlastD] at hle
    linarith

/-- C1: For every `WeightedSampler` (`CompiledOutcomes`) built from an
outcome-to-weight mapping with non-negative weights and positive total,
`sample()` evaluated at a uniform draw `r ∈ [0,1)` computes
`x = r * total ∈ [0, total)` and returns the outcome at the smallest index
`i` such that `x < cdf[i]` (bisect-right); consequently a weight-0 outcome
(`B` in `{A: 1.0, B: 0.0}`) is never returned, for any draw. -/
theorem weighted_choice_bisect_right (p : List (String × ℚ)) (r : ℚ)
    (hw : ∀ w ∈ p.map Prod.snd, 0 ≤ w)
    (hpos : 0 < (CompiledOutcomes.compile p).total)
    (hr0 : 0 ≤ r) (hr1 : r < 1) :
    (∃ i, i < (CompiledOutcomes.compile p).outcomes.length ∧
        (CompiledOutcomes.compile p).weightedChoiceAt r =
          (CompiledOutcomes.compile p).outcomes.get? i ∧
        ((CompiledOutcomes.compile p).outcomes.get? i).isSome = true ∧
        r * (CompiledOutcomes.compile p).total <
          (CompiledOutcomes.compile p).cdf.getD i 0 ∧
        (∀ j, j < i →
          (CompiledOutcomes.compile p).cdf.getD j 0 ≤
            r * (CompiledOutcomes.compile p).total)) ∧
    (∀ s : ℚ, 0 ≤ s → s < 1 →
        (CompiledOutcomes.compile [("A", 1), ("B", 0)]).weightedChoiceAt s
          = some "A") := by
  constructor
  · set c := CompiledOutcomes.compile p with hc
    set x := r * c.total with hx
    have hxtot : x < c.total := by
      calc x = r * c.total := hx
        _ < 1 * c.total := by
            exact mul_lt_mul_of_pos_right hr1 hpos
        _ = c.total := one_mul _
    have hilen : bisect c.cdf x < c.cdf.length :=
      bisect_lt_length_of_lt_total p hw x hxtot hpos
    have hlen : c.outcomes.length = c.cdf.length := by
      rw [hc, compile_outcomes, compile_cdf_length, List.length_map]
    have hspec := bisect_spec c.cdf x (compile_cdf_sorted p hw)
    refine ⟨bisect c.cdf x, by omega, rfl, ?_, ?_, ?_⟩
    · rw [List.get?_eq_getElem?, List.getElem?_eq_getElem (by omega)]
      rfl
    · exact hspec.2.2 (bisect c.cdf x) (le_refl _) hilen
    · intro j hj
      exact hspec.2.1 j hj
  · intro s hs0 hs1
    have hcdf : (CompiledOutcomes.compile [("A", 1), ("B", 0)]).cdf = [1, 1] := by
      norm_num [CompiledOutcomes.compile, CompiledOutcomes.compileFrom]
    have htot : (CompiledOutcomes.compile [("A", 1), ("B", 0)]).total = 1 := by
      norm_num [CompiledOutcomes.compile, CompiledOutcomes.compileFrom]
    have hout : (CompiledOutcomes.compile [("A", 1), ("B", 0)]).outcomes
        = ["A", "B"] := by
      norm_num [CompiledOutcomes.compile, CompiledOutcomes.compileFrom]
    have hsorted : ([1, 1] : List ℚ).Sorted (· ≤ ·) := by
      simp
    have hspec := bisect_spec [1, 1] (s * 1) hsorted
    have hzero : bisect [1, 1] (s * 1) = 0 := by
      rcases Nat.eq_zero_or_pos (bisect [1, 1] (s * 1)) with h | h
      · exact h
      · exfalso
        have := hspec.2.1 0 h
        simp at this
        linarith
    show (CompiledOutcomes.compile [("A", 1), ("B", 0)]).outcomes.get?
        (bisect (CompiledOutcomes.compile [("A", 1), ("B", 0)]).cdf
          (s * (CompiledOutcomes.compile [("A", 1), ("B", 0)]).total)) = some "A"
    rw [hcdf, htot, hout, hzero]
    rfl

/-- Witness for C1: instantiated at the two-outcome table `{A: 1, B: 0}`
and the concrete draw `r = 1/2`. -/
theorem weighted_choice_bisect_right_witness :
    (∃ i, i < (CompiledOutcomes.compile [("A", 1), ("B", 0)]).outcomes.length ∧
        (CompiledOutcomes.compile [("A", 1), ("B", 0)]).weightedChoiceAt (1/2) =
          (CompiledOutcomes.compile [("A", 1), ("B", 0)]).outcomes.get? i ∧
        ((CompiledOutcomes.compile [("A", 1), ("B", 0)]).outcomes.get? i).isSome
          = true ∧
        (1/2 : ℚ) * (CompiledOutcomes.compile [("A", 1), ("B", 0)]).total <
          (CompiledOutcomes.compile [("A", 1), ("B", 0)]).cdf.getD i 0 ∧
        (∀ j, j < i →
          (CompiledOutcomes.compile [("A", 1), ("B", 0)]).cdf.getD j 0 ≤
            (1/2 : ℚ) * (CompiledOutcomes.compile [("A", 1), ("B", 0)]).total)) ∧
    (∀ s : ℚ, 0 ≤ s → s < 1 →
        (CompiledOutcomes.compile [("A", 1), ("B", 0)]).weightedChoiceAt s
          = some "A") := by
  refine weighted_choice_bisect_right [("A", 1), ("B", 0)] (1/2) ?_ ?_ ?_ ?_
  · intro w hwmem
    simp at hwmem
    rcases hwmem with h | h <;> rw [h] <;> norm_num
  · norm_num [CompiledOutcomes.compile, CompiledOutcomes.compileFrom]
  · norm_num
  · norm_num

/-! ## Events and the event queue
`src/mkmover/abm.py` lines 12–33 (`HeapList`), 106–117 (`EventType`,
`Event`); `src/abm_skele.py` lines 100–108 and 116 (`SortedList`). -/

/-- The two event types of the skeleton (`abm_skele.py` lines 100–102),
declared with `enum.auto()`: `Move` gets value 1 and `Infect` value 2. -/
inductive EventType where
  | Move : EventType
  | Infect : EventType
  deriving DecidableEq

/-- The `enum.auto()` member value, which is the rank used by
`EventType.__lt__` (`mkmover/abm.py` lines 107–110: compare `self.value`). -/
def EventType.value : EventType → Nat
  | .Move => 1
  | .Infect => 2

/-- `Event` dataclass with `order=True` (`mkmover/abm.py` lines 112–117):
fields `(t, event_type, agent)`, ordered lexicographically as the tuple
`(t, event_type, agent)` with event types compared by their value. -/
structure Event where
  t : ℚ
  event_type : EventType
  agent : String
  deriving DecidableEq

/-- The dataclass tuple order on events: primary key `t`, secondary key the
event type's value, final tie-break the agent id. -/
def Event.le (a b : Event) : Prop :=
  a.t < b.t ∨ (a.t = b.t ∧ (a.event_type.value < b.event_type.value ∨
    (a.event_type = b.event_type ∧ a.agent ≤ b.agent)))

instance : DecidableRel Event.le := fun a b => by
  unfold Event.le
  infer_instance

theorem event_le_total (a b : Event) : Event.le a b ∨ Event.le b a := by
  unfold Event.le
  rcases lt_trichotomy a.t b.t with h | h | h
  · exact Or.inl (Or.inl h)
  · rcases lt_trichotomy a.event_type.value b.event_type.value with h2 | h2 | h2
    · exact Or.inl (Or.inr ⟨h, Or.inl h2⟩)
    · have hty : a.event_type = b.event_type := by
        cases ha : a.event_type <;> cases hb : b.event_type <;>
          simp_all [EventType.value]
      rcases le_total a.agent b.agent with h3 | h3
      · exact Or.inl (Or.inr ⟨h, Or.inr ⟨hty, h3⟩⟩)
      · exact Or.inr (Or.inr ⟨h.symm, Or.inr ⟨hty.symm, h3⟩⟩)
    · exact Or.inr (Or.inr ⟨h.symm, Or.inl h2⟩)
  · exact Or.inr (Or.inl h)

theorem event_le_refl (a : Event) : Event.le a a :=
  Or.inr ⟨rfl, Or.inr ⟨rfl, le_refl _⟩⟩

theorem event_le_trans {a b c : Event} (hab : Event.le a b) (hbc : Event.le b c) :
    Event.le a c := by
  unfold Event.le at *
  rcases hab with h1 | ⟨h1, h1'⟩
  · rcases hbc with h2 | ⟨h2, _⟩
    · exact Or.inl (h1.trans h2)
    · exact Or.inl (h2 ▸ h1)
  · rcases hbc with h2 | ⟨h2, h2'⟩
    · exact Or.inl (h1 ▸ h2)
    · refine Or.inr ⟨h1.trans h2, ?_⟩
      rcases h1' with h3 | ⟨h3, h3'⟩
      · rcases h2' with h4 | ⟨h4, _⟩
        · exact Or.inl (h3.trans h4)
        · exact Or.inl (h4 ▸ h3)
      · rcases h2' with h4 | ⟨h4, h4'⟩
        · exact Or.inl (h3 ▸ h4)
        · exact Or.inr ⟨h3.trans h4, h3'.trans h4'⟩

theorem event_le_antisymm {a b : Event} (hab : Event.le a b) (hba : Event.le b a) :
    a = b := by
  obtain ⟨ta, tya, aga⟩ := a
  obtain ⟨tb, tyb, agb⟩ := b
  unfold Event.le at *
  simp only at *
  rcases hab with h1 | ⟨h1, h1'⟩ <;> rcases hba with h2 | ⟨h2, h2'⟩
  · exact absurd (h1.trans h2) (lt_irrefl _)
  · exact absurd h1 (h2 ▸ lt_irrefl _)
  · exact absurd h2 (h1 ▸ lt_irrefl _)
  · subst h1
    rcases h1' with h3 | ⟨h3, h3'⟩ <;> rcases h2' with h4 | ⟨h4, h4'⟩
    · exact absurd (h3.trans h4) (lt_irrefl _)
    · exact absurd h3 (h4 ▸ lt_irrefl _)
    · exact absurd h4 (h3 ▸ lt_irrefl _)
    · subst h3
      simp [le_antisymm h3' h4']

instance : IsTotal Event Event.le := ⟨event_le_total⟩

instance : IsTrans Event Event.le := ⟨fun _ _ _ => event_le_trans⟩

instance : IsRefl Event Event.le := ⟨event_le_refl⟩

/-- The event queue. `HeapList` (`mkmover/abm.py` lines 12–33) is a binary
min-heap whose `add` pushes and whose `pop` removes and returns the minimum
element; `abm_skele.py` line 116 uses `sortedcontainers.SortedList` whose
`add` inserts in sorted position and `pop(0)` removes the first (minimum)
element.  Both are embedded by their common observable behaviour: a list
kept sorted by the event order, `add` = ordered insertion, `pop` = head.
(Entries comparing equal under `Event.le` are identical events, by
antisymmetry, so a heap's unspecified tie order is unobservable.) -/
def queueAdd (e : Event) (q : List Event) : List Event :=
  q.orderedInsert Event.le e

theorem queueAdd_sorted (e : Event) (q : List Event)
    (h : q.Sorted Event.le) : (queueAdd e q).Sorted Event.le :=
  List.Sorted.orderedInsert e q h

theorem mem_queueAdd {e f : Event} {q : List Event} :
    f ∈ queueAdd e q ↔ f = e ∨ f ∈ q :=
  List.mem_orderedInsert Event.le

/-! ## Entities
`Agent`/`MemoryAgent` (`mkmover/abm.py` lines 35–83; `abm_skele.py`
lines 9–32) and `Location` (`mkmover/abm.py` lines 85–94). -/

/-- A (memory-carrying) agent: `id`, `infected` (a dynamically typed Python
attribute, set to strings `'S'`/`'I'` by all the code that reads it —
modelled as `String`, with the constructor's `False` rendered as the string
`"False"`), `location` (`None` = unplaced), bounded `history`
(most-recent-last, `deque(maxlen=maxhist)`).  `abm_skele.Agent` and
`mkmover.abm.MemoryAgent` both carry all of these fields. -/
structure AgentR where
  id : String
  infected : String
  location : Option String
  history : List String
  maxhist : Option Nat
  deriving DecidableEq

/-- `Agent(name, maxhist)` constructor (`abm_skele.py` lines 10–19). -/
def mkAgent (name : String) (maxhist : Option Nat) : AgentR :=
  ⟨name, "False", none, [], maxhist⟩

/-- `deque(maxlen=m).append(l)`: append and evict the oldest entries beyond
the bound (unbounded when no maximum is given). -/
def pushHist (maxhist : Option Nat) (h : List String) (l : String) : List String :=
  match maxhist with
  | none => h ++ [l]
  | some m => (h ++ [l]).drop ((h ++ [l]).length - m)

/-- `MemoryAgent.move_to` (`mkmover/abm.py` lines 74–79, `abm_skele.py`
lines 27–32): set `location` and append it to `history`. -/
def AgentR.moveTo (a : AgentR) (location : String) : AgentR :=
  { a with location := some location,
           history := pushHist a.maxhist a.history location }

/-- `MemoryAgent.state` (`mkmover/abm.py` lines 81–83) and the context key
built by `AgentMover.next_location` (`abm_skele.py` line 96):
`(self.infected, *reversed(self.history))`. -/
def AgentR.state (a : AgentR) : List String :=
  a.infected :: a.history.reverse

/-- A location: `id` and the set of ids of its occupants
(`mkmover/abm.py` lines 85–94). -/
structure LocationR where
  id : String
  occupants : Finset String
  deriving DecidableEq

/-- `Location(name)` constructor: empty occupant set. -/
def mkLocation (name : String) : LocationR := ⟨name, ∅⟩

/-! ## The Markov mover
`MarkovMover` (`src/mkmover/markov_mover.py` lines 31–54), identical to
`AgentMover` in `abm_skele.py` lines 73–98.  The `ChainMap` of compiled
tables is embedded as a list of layers, newest first (`new_child` pushes a
map onto the front of the lookup chain). -/

/-- One layer: exact context key (the Python tuple, as a list of strings)
to compiled outcome table. -/
abbrev MoverLayer : Type := List (List String × CompiledOutcomes)

/-- Lookup of an exact key in one layer (a Python dict). -/
def layerFind : MoverLayer → List String → Option CompiledOutcomes
  | [], _ => none
  | (k, v) :: rest, key => if key = k then some v else layerFind rest key

/-- `self.move_probs[state]` on the `ChainMap`: scan the layers newest
first and return the value under the first exact match of the key;
a missing key raises `KeyError` (= `none`). -/
def resolveKey : List MoverLayer → List String → Option CompiledOutcomes
  | [], _ => none
  | layer :: older, key =>
      match layerFind layer key with
      | some co => some co
      | none => resolveKey older key

/-- `add_move_probs(new_map)` (`markov_mover.py` lines 42–48): compile each
value and push the resulting map onto the front of the chain. -/
def addMoveProbs (layers : List MoverLayer)
    (newMap : List (List String × List (String × ℚ))) : List MoverLayer :=
  (newMap.map (fun kv => (kv.1, CompiledOutcomes.compile kv.2))) :: layers

/-- `next_location` (`abm_skele.py` lines 92–98): build the context key
`(agent.infected, *reversed(agent.history))`, resolve it in the chain, and
draw a weighted sample (with the uniform draw `r` explicit). -/
def nextLocation (layers : List MoverLayer) (a : AgentR) (r : ℚ) : Option String :=
  match resolveKey layers a.state with
  | none => none
  | some co => co.weightedChoiceAt r

/-! ## The simulation state
`ModelState` (`src/mkmover/abm.py` lines 119–177) together with the event
dispatch and infection handler of the skeleton (`src/abm_skele.py`
lines 110–176), which is the only simulation loop in the repository.  The
union of the two drafts' fields is carried: `event_map` exists only in
`mkmover/abm.py` (and is touched by no other operation), `mover` is the
`ABM.mover` of `abm_skele.py` line 114. -/

structure ModelState where
  agents : List (String × AgentR)
  locations : List (String × LocationR)
  mover : List MoverLayer
  t : ℚ
  queue : List Event
  eventMap : List (String × Finset Event)

/-- The freshly constructed state (`ModelState.__init__`,
`mkmover/abm.py` lines 132–139): empty tables, `t = 0`, empty queue,
`defaultdict(set)` event map. -/
def ModelState.init : ModelState := ⟨[], [], [], 0, [], []⟩

/-- `defaultdict(set)` lookup: missing keys yield the empty set. -/
def emLookup (m : List (String × Finset Event)) (agent : String) : Finset Event :=
  (alookup m agent).getD ∅

/-- `ModelState.move` (`mkmover/abm.py` lines 147–155):
look up agent and destination (a `KeyError` = `NotFoundError` when either
is unknown, raised before any mutation), then discard the agent id from
the occupant set of its current location if that location id is in the
locations table (`self.locations.get(...)`, `set.discard`: no-op when the
id is absent from the set), record the move on the agent
(`MemoryAgent.move_to`), and add the agent id to the destination's
occupant set. -/
def ModelState.move (s : ModelState) (agent location : String) : Option ModelState :=
  match alookup s.agents agent with
  | none => none
  | some agentObj =>
    match alookup s.locations location with
    | none => none
    | some _ =>
      let locs1 := match agentObj.location with
        | some oldLoc =>
            amodify (fun L => { L with occupants := L.occupants.erase agent })
              s.locations oldLoc
        | none => s.locations
      let locs2 := amodify (fun L => { L with occupants := insert agent L.occupants })
        locs1 location
      some { s with agents := aset s.agents agent (agentObj.moveTo location),
                    locations := locs2 }

/-- `add_agent` (`mkmover/abm.py` lines 157–158): `self.agents[agent.id] = agent`. -/
def ModelState.addAgent (s : ModelState) (a : AgentR) : ModelState :=
  { s with agents := aset s.agents a.id a }

/-- `add_location` (`mkmover/abm.py` lines 160–161). -/
def ModelState.addLocation (s : ModelState) (l : LocationR) : ModelState :=
  { s with locations := aset s.locations l.id l }

/-- `add_event` (`mkmover/abm.py` lines 174–177): construct the event, push
it onto the queue, and add it to `event_map[agent]`. -/
def ModelState.addEvent (s : ModelState) (t : ℚ) (ty : EventType)
    (agent : String) : ModelState :=
  let e : Event := ⟨t, ty, agent⟩
  { s with queue := queueAdd e s.queue,
           eventMap := aset s.eventMap agent (insert e (emLookup s.eventMap agent)) }

/-- `do_next_move` (`abm_skele.py` lines 134–137): fetch the agent, draw
its next location from the mover, and move it. -/
def ModelState.doNextMove (s : ModelState) (agent : String) (r : ℚ) :
    Option ModelState :=
  match alookup s.agents agent with
  | none => none
  | some agentObj =>
    match nextLocation s.mover agentObj r with
    | none => none
    | some nextLoc => s.move agent nextLoc

/-- `do_potential_infect` (`abm_skele.py` lines 158–168): read the acting
agent's location and its occupant set; if fewer than two occupants, return
without touching anything; otherwise take the two sampled occupants
`(c1, c2)` (`random.sample(targets, k=2)`, made explicit; contract: two
distinct members of the occupant set), drop `c1` if it is the acting agent
(`cands.remove(agent)` removes the first list entry), and flip the
remaining candidate from `'S'` to `'I'` if and only if it is `'S'`. -/
def ModelState.doPotentialInfect (s : ModelState) (agent : String)
    (c1 c2 : String) : Option ModelState :=
  match alookup s.agents agent with
  | none => none
  | some agentObj =>
    match agentObj.location with
    | none => none
    | some locId =>
      match alookup s.locations locId with
      | none => none
      | some locObj =>
        if locObj.occupants.card < 2 then some s
        else
          let cand := if c1 = agent then c2 else c1
          match alookup s.agents cand with
          | none => none
          | some candObj =>
            if candObj.infected = "S" then
              some { s with
                agents := aset s.agents cand ({ candObj with infected := "I" }) }
            else some s

/-- `handle_next_event` (`abm_skele.py` lines 170–176): pop the minimum
event, set `self.t` to its time, and dispatch on the event type.  Popping
an empty queue raises (`none`); a failure inside a handler also surfaces
as `none` (the step did not complete). -/
def ModelState.handleNextEvent (s : ModelState) (r : ℚ) (c1 c2 : String) :
    Option ModelState :=
  match s.queue with
  | [] => none
  | e :: rest =>
    let s1 := { s with queue := rest, t := e.t }
    match e.event_type with
    | EventType.Move => s1.doNextMove e.agent r
    | EventType.Infect => s1.doPotentialInfect e.agent c1 c2

/-! ## Claim C10 — re-adding an entity silently replaces its record -/

/-- C10: `add_agent` with an id already present in the agent table (and
`add_location` with an already-present location id) raises no error — both
are total functions, as `self.agents[agent.id] = agent` never raises — and
silently replace the previously stored record with the new one, leaving
every other table entry, the other table, and hence all occupant sets
unchanged. -/
theorem add_entity_replaces (s : ModelState) (a : AgentR) (l : LocationR)
    (olda : AgentR) (oldl : LocationR)
    (ha : alookup s.agents a.id = some olda)
    (hl : alookup s.locations l.id = some oldl) :
    alookup (s.addAgent a).agents a.id = some a ∧
    (∀ k, k ≠ a.id → alookup (s.addAgent a).agents k = alookup s.agents k) ∧
    (s.addAgent a).locations = s.locations ∧
    (s.addAgent a).queue = s.queue ∧
    (s.addAgent a).eventMap = s.eventMap ∧
    alookup (s.addLocation l).locations l.id = some l ∧
    (∀ k, k ≠ l.id → alookup (s.addLocation l).locations k = alookup s.locations k) ∧
    (s.addLocation l).agents = s.agents := by
  refine ⟨?_, ?_, rfl, rfl, rfl, ?_, ?_, rfl⟩
  · simp [ModelState.addAgent]
  · intro k hk
    simp [ModelState.addAgent, alookup_aset, hk]
  · simp [ModelState.addLocation]
  · intro k hk
    simp [ModelState.addLocation, alookup_aset, hk]

/-- Witness for C10 at a concrete one-agent, one-location state. -/
theorem add_entity_replaces_witness :
    (let s := (ModelState.init.addAgent (mkAgent "H" none)).addLocation
        (mkLocation "A");
      let a2 := mkAgent "H" (some 2);
      let l2 : LocationR := ⟨"A", {"H"}⟩;
      alookup (s.addAgent a2).agents "H" = some a2 ∧
      (∀ k, k ≠ "H" → alookup (s.addAgent a2).agents k = alookup s.agents k) ∧
      (s.addAgent a2).locations = s.locations ∧
      (s.addAgent a2).queue = s.queue ∧
      (s.addAgent a2).eventMap = s.eventMap ∧
      alookup (s.addLocation l2).locations "A" = some l2 ∧
      (∀ k, k ≠ "A" → alookup (s.addLocation l2).locations k = alookup s.locations k) ∧
      (s.addLocation l2).agents = s.agents) := by
  exact add_entity_replaces _ (mkAgent "H" (some 2)) ⟨"A", {"H"}⟩
    (mkAgent "H" none) (mkLocation "A") (by rfl) (by rfl)

/-! ## Claim C8 — move error handling -/

/-- C8: `move(agent_id, new_location_id)` fails (with a `KeyError`, the
spec's `NotFoundError`) exactly when the agent id or the destination
location id is unknown; on failure the caller observes no mutation at all
(the embedding returns `none` and no new state — the Python code performs
both lookups before its first mutation); and when the agent's id is absent
from its prior location's occupant set, the removal (`set.discard`) is a
no-op rather than an error: the move still succeeds, and a prior location
different from the destination keeps its record unchanged. -/
theorem move_error_handling (s : ModelState) (agent loc : String) :
    (s.move agent loc = none ↔
      alookup s.agents agent = none ∨ alookup s.locations loc = none) ∧
    (∀ A L, alookup s.agents agent = some A → alookup s.locations loc = some L →
      (s.move agent loc).isSome = true) ∧
    (∀ A L ol OL, alookup s.agents agent = some A →
      alookup s.locations loc = some L →
      A.location = some ol → alookup s.locations ol = some OL →
      agent ∉ OL.occupants → ol ≠ loc →
      ∃ s', s.move agent loc = some s' ∧
        alookup s'.locations ol = some OL) := by
  refine ⟨?_, ?_, ?_⟩
  · constructor
    · intro hmv
      by_cases ha : alookup s.agents agent = none
      · exact Or.inl ha
      · obtain ⟨A, hA⟩ := Option.ne_none_iff_exists.mp ha
        by_cases hl : alookup s.locations loc = none
        · exact Or.inr hl
        · obtain ⟨L, hL⟩ := Option.ne_none_iff_exists.mp hl
          rw [ModelState.move, ← hA, ← hL] at hmv
          simp at hmv
    · intro h
      rcases h with h | h
      · simp [ModelState.move, h]
      · cases ha : alookup s.agents agent with
        | none => simp [ModelState.move, ha]
        | some A => simp [ModelState.move, ha, h]
  · intro A L hA hL
    simp [ModelState.move, hA, hL]
  · intro A L ol OL hA hL hol hOL hnotin hne
    have hsome : (s.move agent loc).isSome = true := by
      simp [ModelState.move, hA, hL]
    obtain ⟨s', hs'⟩ := Option.isSome_iff_exists.mp hsome
    refine ⟨s', hs', ?_⟩
    rw [ModelState.move, hA, hL] at hs'
    simp only [hol] at hs'
    have hval := Option.some.inj hs'
    rw [← hval]
    show alookup (amodify (fun L => { L with occupants := insert agent L.occupants })
      (amodify (fun L => { L with occupants := L.occupants.erase agent })
        s.locations ol) loc) ol = some OL
    rw [alookup_amodify, if_neg hne, alookup_amodify, if_pos rfl, hOL]
    simp [Finset.erase_eq_self.mpr hnotin]

/-- Witness for C8: one agent at location `"A"` whose id is (artificially)
absent from `"A"`'s occupant set, moved to `"B"`. -/
theorem move_error_handling_witness :
    (let agentH : AgentR := ⟨"H", "S", some "A", ["A"], none⟩;
      let s : ModelState :=
        ⟨[("H", agentH)], [("A", mkLocation "A"), ("B", mkLocation "B")],
          [], 0, [], []⟩;
      (s.move "H" "B" = none ↔
        alookup s.agents "H" = none ∨ alookup s.locations "B" = none) ∧
      (∀ A L, alookup s.agents "H" = some A → alookup s.locations "B" = some L →
        (s.move "H" "B").isSome = true) ∧
      (∀ A L ol OL, alookup s.agents "H" = some A →
        alookup s.locations "B" = some L →
        A.location = some ol → alookup s.locations ol = some OL →
        "H" ∉ OL.occupants → ol ≠ "B" →
        ∃ s', s.move "H" "B" = some s' ∧
          alookup s'.locations ol = some OL)) :=
  move_error_handling _ "H" "B"

/-! ## Claim C2 — the occupant-set invariant -/

/-- The occupant-set invariant: an agent id is in a location's occupant set
iff that location's id equals the agent's current `location` field. -/
def OccInvariant (s : ModelState) : Prop :=
  ∀ aid A lid L, alookup s.agents aid = some A →
    alookup s.locations lid = some L →
    (aid ∈ L.occupants ↔ A.location = some lid)

/-- Lookup in the locations table after a successful `move`:
the destination gains `agent`, the agent's prior location (when it is a
known location) has `agent` discarded, everything else is untouched. -/
theorem move_locations_lookup (s : ModelState) (agent loc : String)
    (agentObj : AgentR) (locObj : LocationR) (s' : ModelState)
    (hA : alookup s.agents agent = some agentObj)
    (hL : alookup s.locations loc = some locObj)
    (hmv : s.move agent loc = some s') :
    ∀ lid, alookup s'.locations lid =
      (if lid = loc
        then Option.map (fun L => { L with occupants := insert agent L.occupants })
        else id)
      ((if agentObj.location = some lid
        then Option.map (fun L => { L with occupants := L.occupants.erase agent })
        else id) (alookup s.locations lid)) := by
  intro lid
  rw [ModelState.move, hA, hL] at hmv
  have hval := Option.some.inj hmv
  rw [← hval]
  show alookup (amodify (fun L => { L with occupants := insert agent L.occupants })
      (match agentObj.location with
        | some oldLoc =>
            amodify (fun L => { L with occupants := L.occupants.erase agent })
              s.locations oldLoc
        | none => s.locations) loc) lid = _
  cases hloc : agentObj.location with
  | none =>
    rw [alookup_amodify]
    by_cases h : lid = loc <;> simp [h]
  | some ol =>
    rw [alookup_amodify, alookup_amodify]
    simp only [Option.some.injEq]
    by_cases h1 : lid = loc <;> by_cases h2 : lid = ol
    · rw [if_pos h1, if_pos h2, if_pos h1, if_pos h2.symm]
    · rw [if_pos h1, if_neg h2, if_pos h1, if_neg (fun h => h2 h.symm)]
      rfl
    · rw [if_neg h1, if_pos h2, if_neg h1, if_pos h2.symm]
      rfl
    · rw [if_neg h1, if_neg h2, if_neg h1, if_neg (fun h => h2 h.symm)]
      rfl

/-- Lookup in the agents table after a successful `move`: the moved agent's
record becomes `move_to(loc)` (location set, history appended), all other
agents are untouched. -/
theorem move_agents_lookup (s : ModelState) (agent loc : String)
    (agentObj : AgentR) (locObj : LocationR) (s' : ModelState)
    (hA : alookup s.agents agent = some agentObj)
    (hL : alookup s.locations loc = some locObj)
    (hmv : s.move agent loc = some s') :
    ∀ aid, alookup s'.agents aid =
      if aid = agent then some (agentObj.moveTo loc) else alookup s.agents aid := by
  intro aid
  rw [ModelState.move, hA, hL] at hmv
  have hval := Option.some.inj hmv
  rw [← hval]
  show alookup (aset s.agents agent (agentObj.moveTo loc)) aid = _
  rw [alookup_aset]

/-- C2: after a successful `move(agent_id, loc_id)` the destination's
occupant set contains the agent's id, the agent's `location` field equals
the destination id, and a prior known location different from the
destination no longer lists the agent; moreover `move` preserves the
occupant-set invariant — agent id in occupant set iff that location is the
agent's current location field — for every agent and location. -/
theorem move_preserves_occupant_invariant (s : ModelState) (agent loc : String)
    (s' : ModelState) (hinv : OccInvariant s)
    (hmv : s.move agent loc = some s') :
    (∃ L', alookup s'.locations loc = some L' ∧ agent ∈ L'.occupants) ∧
    (∃ A', alookup s'.agents agent = some A' ∧ A'.location = some loc) ∧
    (∀ A ol, alookup s.agents agent = some A → A.location = some ol →
      ol ≠ loc → ∀ OL', alookup s'.locations ol = some OL' →
        agent ∉ OL'.occupants) ∧
    OccInvariant s' := by
  cases hA : alookup s.agents agent with
  | none =>
    rw [ModelState.move, hA] at hmv
    exact absurd hmv (by simp)
  | some agentObj =>
  cases hL : alookup s.locations loc with
  | none =>
    rw [ModelState.move, hA, hL] at hmv
    exact absurd hmv (by simp)
  | some locObj =>
  have hlocs := move_locations_lookup s agent loc agentObj locObj s' hA hL hmv
  have hags := move_agents_lookup s agent loc agentObj locObj s' hA hL hmv
  have hchar : ∀ lid L', alookup s'.locations lid = some L' →
      ∃ L, alookup s.locations lid = some L ∧
        (∀ aid, aid ≠ agent → (aid ∈ L'.occupants ↔ aid ∈ L.occupants)) ∧
        (agent ∈ L'.occupants ↔
          (lid = loc ∨ (agentObj.location ≠ some lid ∧ agent ∈ L.occupants))) := by
    intro lid L' hL'
    rw [hlocs lid] at hL'
    by_cases h1 : lid = loc <;> by_cases h2 : agentObj.location = some lid
    · rw [if_pos h1, if_pos h2] at hL'
      cases hbase : alookup s.locations lid with
      | none => rw [hbase] at hL'; exact absurd hL' (by simp)
      | some L =>
        rw [hbase, Option.map_some', Option.map_some'] at hL'
        refine ⟨L, rfl, ?_, ?_⟩
        · intro aid haid
          rw [← Option.some.inj hL']
          simp [Finset.mem_insert, Finset.mem_erase, haid]
        · rw [← Option.some.inj hL']
          simp [h1]
    · rw [if_pos h1, if_neg h2, id_eq] at hL'
      cases hbase : alookup s.locations lid with
      | none => rw [hbase] at hL'; exact absurd hL' (by simp)
      | some L =>
        rw [hbase, Option.map_some'] at hL'
        refine ⟨L, rfl, ?_, ?_⟩
        · intro aid haid
          rw [← Option.some.inj hL']
          simp [Finset.mem_insert, haid]
        · rw [← Option.some.inj hL']
          simp [h1]
    · rw [if_neg h1, if_pos h2, id_eq] at hL'
      cases hbase : alookup s.locations lid with
      | none => rw [hbase] at hL'; exact absurd hL' (by simp)
      | some L =>
        rw [hbase, Option.map_some'] at hL'
        refine ⟨L, rfl, ?_, ?_⟩
        · intro aid haid
          rw [← Option.some.inj hL']
          simp [Finset.mem_erase, haid]
        · rw [← Option.some.inj hL']
          simp [h1, h2]
    · rw [if_neg h1, if_neg h2, id_eq, id_eq] at hL'
      refine ⟨L', hL', fun aid haid => Iff.rfl, ?_⟩
      simp [h1, h2]
  refine ⟨?_, ?_, ?_, ?_⟩
  · have hsl : alookup s'.locations loc =
        (if loc = loc
          then Option.map (fun L => { L with occupants := insert agent L.occupants })
          else id)
        ((if agentObj.location = some loc
          then Option.map (fun L => { L with occupants := L.occupants.erase agent })
          else id) (alookup s.locations loc)) := hlocs loc
    rw [if_pos rfl, hL] at hsl
    by_cases h2 : agentObj.location = some loc
    · rw [if_pos h2] at hsl
      exact ⟨_, hsl, by simp⟩
    · rw [if_neg h2] at hsl
      exact ⟨_, hsl, by simp⟩
  · refine ⟨agentObj.moveTo loc, ?_, rfl⟩
    rw [hags agent, if_pos rfl]
  · intro A ol hA2 hol hne OL' hOL'
    obtain rfl : agentObj = A := Option.some.inj hA2
    obtain ⟨L, hLbase, hmem, hagent⟩ := hchar ol OL' hOL'
    intro hcontra
    rcases hagent.mp hcontra with h | ⟨h, _⟩
    · exact hne h
    · exact h hol
  · intro aid A' lid L' hA' hL'
    rw [hags aid] at hA'
    obtain ⟨L, hLbase, hmem, hagent⟩ := hchar lid L' hL'
    by_cases haid : aid = agent
    · subst haid
      rw [if_pos rfl] at hA'
      obtain rfl : agentObj.moveTo loc = A' := Option.some.inj hA'
      rw [hagent]
      have hmvloc : (agentObj.moveTo loc).location = some loc := rfl
      rw [hmvloc]
      constructor
      · intro h
        rcases h with h | ⟨h, hhm⟩
        · rw [h]
        · exact absurd ((hinv aid agentObj lid L hA hLbase).mp hhm) h
      · intro h
        exact Or.inl (Option.some.inj h).symm
    · rw [if_neg haid] at hA'
      rw [hmem aid haid]
      exact hinv aid A' lid L hA' hLbase

/-- Witness for C2: a single unplaced agent `"H"` moved to location `"A"`
in a state that satisfies the occupant-set invariant. -/
theorem move_preserves_occupant_invariant_witness :
    (let s0 : ModelState :=
      ⟨[("H", mkAgent "H" none)], [("A", mkLocation "A")], [], 0, [], []⟩;
    let s1 : ModelState :=
      ⟨[("H", ⟨"H", "False", some "A", ["A"], none⟩)],
        [("A", ⟨"A", {"H"}⟩)], [], 0, [], []⟩;
    (∃ L', alookup s1.locations "A" = some L' ∧ "H" ∈ L'.occupants) ∧
    (∃ A', alookup s1.agents "H" = some A' ∧ A'.location = some "A") ∧
    (∀ A ol, alookup s0.agents "H" = some A → A.location = some ol →
      ol ≠ "A" → ∀ OL', alookup s1.locations ol = some OL' →
        "H" ∉ OL'.occupants) ∧
    OccInvariant s1) := by
  intro s0 s1
  have hinv0 : OccInvariant s0 := by
    intro aid A lid L h1 h2
    simp only [alookup_cons, alookup_nil] at h1 h2
    split_ifs at h1 h2 <;> simp_all [mkAgent, mkLocation]
    subst h1
    subst h2
    simp
  have hmv0 : s0.move "H" "A" = some s1 := by rfl
  exact move_preserves_occupant_invariant s0 "H" "A" s1 hinv0 hmv0

/-! ## Claim C5 — deterministic event ordering -/

/-- C5: events are totally ordered (total, transitive, antisymmetric) with
primary key `t` ascending and, at equal times, the fixed rank of the event
type (declaration value: `Move` = 1, `Infect` = 2) breaking the tie; and
concretely, scheduling `(t=1, Move, "H")` then `(t=0.5, Infect, "H")` on an
empty queue leaves the queue with the Infect event (`t` field `1/2`) first,
so the first pop of the minimum yields it, and the second pop yields the
Move event with `t` field `1`. -/
theorem event_ordering (a b c : Event) :
    (Event.le a b ∨ Event.le b a) ∧
    (Event.le a b → Event.le b c → Event.le a c) ∧
    (Event.le a b → Event.le b a → a = b) ∧
    (a.t < b.t → Event.le a b ∧ ¬ Event.le b a) ∧
    (a.t = b.t → a.event_type.value < b.event_type.value →
      Event.le a b ∧ ¬ Event.le b a) ∧
    (queueAdd ⟨1/2, EventType.Infect, "H"⟩ (queueAdd ⟨1, EventType.Move, "H"⟩ [])
      = [⟨1/2, EventType.Infect, "H"⟩, ⟨1, EventType.Move, "H"⟩]) := by
  refine ⟨event_le_total a b, event_le_trans, event_le_antisymm, ?_, ?_, ?_⟩
  · intro h
    refine ⟨Or.inl h, ?_⟩
    intro hba
    rcases hba with h2 | ⟨h2, _⟩
    · exact absurd (h.trans h2) (lt_irrefl _)
    · exact absurd h (h2 ▸ lt_irrefl _)
  · intro ht hv
    refine ⟨Or.inr ⟨ht, Or.inl hv⟩, ?_⟩
    intro hba
    rcases hba with h2 | ⟨_, h2 | ⟨h2, _⟩⟩
    · exact absurd h2 (ht ▸ lt_irrefl _)
    · exact absurd (hv.trans h2) (lt_irrefl _)
    · exact absurd hv (h2 ▸ lt_irrefl _)
  · have h12 : Event.le ⟨1/2, EventType.Infect, "H"⟩ ⟨1, EventType.Move, "H"⟩ :=
      Or.inl (by norm_num)
    show List.orderedInsert Event.le _ (List.orderedInsert Event.le _ []) = _
    rw [List.orderedInsert_nil, List.orderedInsert_of_le Event.le _ h12]

/-- Witness for C5 at three concrete events. -/
theorem event_ordering_witness :
    (let a : Event := ⟨0, EventType.Move, "x"⟩;
    let b : Event := ⟨1, EventType.Infect, "y"⟩;
    let c : Event := ⟨2, EventType.Move, "z"⟩;
    (Event.le a b ∨ Event.le b a) ∧
    (Event.le a b → Event.le b c → Event.le a c) ∧
    (Event.le a b → Event.le b a → a = b) ∧
    (a.t < b.t → Event.le a b ∧ ¬ Event.le b a) ∧
    (a.t = b.t → a.event_type.value < b.event_type.value →
      Event.le a b ∧ ¬ Event.le b a) ∧
    (queueAdd ⟨1/2, EventType.Infect, "H"⟩ (queueAdd ⟨1, EventType.Move, "H"⟩ [])
      = [⟨1/2, EventType.Infect, "H"⟩, ⟨1, EventType.Move, "H"⟩])) :=
  event_ordering ⟨0, EventType.Move, "x"⟩ ⟨1, EventType.Infect, "y"⟩
    ⟨2, EventType.Move, "z"⟩

/-! ## Claim C6 — the dispatch loop advances time monotonically -/

/-- A successful `move` touches only the `agents` and `locations` fields. -/
theorem move_preserves_rest (s s' : ModelState) (agent loc : String)
    (hmv : s.move agent loc = some s') :
    s'.queue = s.queue ∧ s'.t = s.t ∧ s'.eventMap = s.eventMap ∧
      s'.mover = s.mover := by
  cases hA : alookup s.agents agent with
  | none => rw [ModelState.move, hA] at hmv; exact absurd hmv (by simp)
  | some agentObj =>
    cases hL : alookup s.locations loc with
    | none => rw [ModelState.move, hA, hL] at hmv; exact absurd hmv (by simp)
    | some locObj =>
      rw [ModelState.move, hA, hL] at hmv
      have hval := Option.some.inj hmv
      rw [← hval]
      exact ⟨rfl, rfl, rfl, rfl⟩

/-- A successful `do_next_move` touches only `agents` and `locations`. -/
theorem doNextMove_preserves_rest (s s' : ModelState) (agent : String) (r : ℚ)
    (h : s.doNextMove agent r = some s') :
    s'.queue = s.queue ∧ s'.t = s.t ∧ s'.eventMap = s.eventMap ∧
      s'.mover = s.mover := by
  rw [ModelState.doNextMove] at h
  cases hA : alookup s.agents agent with
  | none => rw [hA] at h; exact absurd h (by simp)
  | some agentObj =>
    rw [hA] at h
    dsimp only at h
    cases hN : nextLocation s.mover agentObj r with
    | none => rw [hN] at h; exact absurd h (by simp)
    | some nextLoc =>
      rw [hN] at h
      exact move_preserves_rest s s' agent nextLoc h

/-- A successful `do_potential_infect` touches only `agents`. -/
theorem doPotentialInfect_preserves_rest (s s' : ModelState)
    (agent c1 c2 : String) (h : s.doPotentialInfect agent c1 c2 = some s') :
    s'.queue = s.queue ∧ s'.t = s.t ∧ s'.eventMap = s.eventMap ∧
      s'.mover = s.mover ∧ s'.locations = s.locations := by
  rw [ModelState.doPotentialInfect] at h
  cases hA : alookup s.agents agent with
  | none => rw [hA] at h; exact absurd h (by simp)
  | some agentObj =>
    rw [hA] at h
    dsimp only at h
    cases hloc : agentObj.location with
    | none => rw [hloc] at h; exact absurd h (by simp)
    | some locId =>
      rw [hloc] at h
      dsimp only at h
      cases hL : alookup s.locations locId with
      | none => rw [hL] at h; exact absurd h (by simp)
      | some locObj =>
        rw [hL] at h
        dsimp only at h
        by_cases hcard : locObj.occupants.card < 2
        · rw [if_pos hcard] at h
          rw [← Option.some.inj h]
          exact ⟨rfl, rfl, rfl, rfl, rfl⟩
        · rw [if_neg hcard] at h
          cases hC : alookup s.agents (if c1 = agent then c2 else c1) with
          | none => rw [hC] at h; exact absurd h (by simp)
          | some candObj =>
            rw [hC] at h
            dsimp only at h
            by_cases hS : candObj.infected = "S"
            · rw [if_pos hS] at h
              rw [← Option.some.inj h]
              exact ⟨rfl, rfl, rfl, rfl, rfl⟩
            · rw [if_neg hS] at h
              rw [← Option.some.inj h]
              exact ⟨rfl, rfl, rfl, rfl, rfl⟩

/-- Characterization of one dispatch step (`handle_next_event`): it pops
the head (minimum) of the queue, sets `t` to that event's time, dispatches
by event type, and leaves the queue's tail and the event map untouched. -/
theorem handleNextEvent_char (s s' : ModelState) (r : ℚ) (c1 c2 : String)
    (h : s.handleNextEvent r c1 c2 = some s') :
    ∃ e rest, s.queue = e :: rest ∧ s'.queue = rest ∧ s'.t = e.t ∧
      s'.eventMap = s.eventMap ∧
      (e.event_type = EventType.Move →
        ModelState.doNextMove { s with queue := rest, t := e.t } e.agent r
          = some s') ∧
      (e.event_type = EventType.Infect →
        ModelState.doPotentialInfect { s with queue := rest, t := e.t }
          e.agent c1 c2 = some s') := by
  rw [ModelState.handleNextEvent] at h
  cases hq : s.queue with
  | nil => rw [hq] at h; exact absurd h (by simp)
  | cons e rest =>
    rw [hq] at h
    dsimp only at h
    refine ⟨e, rest, rfl, ?_⟩
    cases hty : e.event_type with
    | Move =>
      rw [hty] at h
      dsimp only at h
      obtain ⟨hqq, htt, hmm, _⟩ :=
        doNextMove_preserves_rest { s with queue := rest, t := e.t } s' e.agent r h
      exact ⟨hqq, htt, hmm, fun _ => h, fun hcontra => EventType.noConfusion hcontra⟩
    | Infect =>
      rw [hty] at h
      dsimp only at h
      obtain ⟨hqq, htt, hmm, _, _⟩ :=
        doPotentialInfect_preserves_rest { s with queue := rest, t := e.t } s'
          e.agent c1 c2 h
      exact ⟨hqq, htt, hmm, fun hcontra => EventType.noConfusion hcontra, fun _ => h⟩

/-- `run`-style iteration of `handle_next_event` over a list of explicit
random inputs, stopping with `none` if any step fails. -/
def runSteps (s : ModelState) : List (ℚ × String × String) → Option ModelState
  | [] => some s
  | (r, c1, c2) :: rest =>
      match s.handleNextEvent r c1 c2 with
      | none => none
      | some s' => runSteps s' rest

theorem runSteps_queue (inputs : List (ℚ × String × String)) :
    ∀ s s' : ModelState, runSteps s inputs = some s' →
      s'.queue = s.queue.drop inputs.length := by
  induction inputs with
  | nil =>
    intro s s' h
    rw [← Option.some.inj h]
    simp [runSteps]
  | cons hd tl ih =>
    intro s s' h
    obtain ⟨r, c1, c2⟩ := hd
    rw [runSteps] at h
    cases hstep : s.handleNextEvent r c1 c2 with
    | none => rw [hstep] at h; exact absurd h (by simp)
    | some s1 =>
      rw [hstep] at h
      obtain ⟨e, rest, hq, hq1, _, _, _, _⟩ :=
        handleNextEvent_char s s1 r c1 c2 hstep
      rw [ih s1 s' h, hq1, hq]
      simp

/-- C6: a dispatch step pops the minimum event, sets `t` to that event's
time, and dispatches by event type; over a run of successful steps from a
state with a sorted queue, `t` never decreases from one step to the next,
and the events dispatched are exactly the queue's entries in order (a
non-decreasing time sequence, since the queue is sorted by time-first
order). -/
theorem dispatch_monotone (s s1 s2 : ModelState) (r r' : ℚ)
    (c1 c2 d1 d2 : String) (hsort : s.queue.Sorted Event.le)
    (h1 : s.handleNextEvent r c1 c2 = some s1)
    (h2 : s1.handleNextEvent r' d1 d2 = some s2) :
    s1.t ≤ s2.t ∧
    (∃ e1 e2 rest, s.queue = e1 :: e2 :: rest ∧ s1.t = e1.t ∧ s2.t = e2.t ∧
      Event.le e1 e2) ∧
    (∀ inputs s', runSteps s inputs = some s' →
      s'.queue = s.queue.drop inputs.length ∧
      (s.queue.take inputs.length).Sorted Event.le ∧
      (s.queue.take inputs.length).Pairwise (fun e f => e.t ≤ f.t)) := by
  obtain ⟨e1, rest1, hq, hq1, ht1, _, _, _⟩ := handleNextEvent_char s s1 r c1 c2 h1
  obtain ⟨e2, rest2, hq2, _, ht2, _, _, _⟩ := handleNextEvent_char s1 s2 r' d1 d2 h2
  rw [hq1] at hq2
  have hle : Event.le e1 e2 := by
    rw [hq, hq2] at hsort
    exact (List.sorted_cons.mp hsort).1 e2 (by simp)
  have htle : e1.t ≤ e2.t := by
    rcases hle with h | ⟨h, _⟩
    · exact le_of_lt h
    · exact le_of_eq h
  refine ⟨by rw [ht1, ht2]; exact htle, ⟨e1, e2, rest2, by rw [hq, hq2], ht1, ht2, hle⟩, ?_⟩
  intro inputs s' hrun
  refine ⟨runSteps_queue inputs s s' hrun, ?_, ?_⟩
  · exact List.Pairwise.sublist (List.take_sublist _ _) hsort
  · have hs := List.Pairwise.sublist (List.take_sublist inputs.length s.queue) hsort
    refine hs.imp ?_
    intro e f hef
    rcases hef with h | ⟨h, _⟩
    · exact le_of_lt h
    · exact le_of_eq h

/-- Witness for C6: two queued Infect events (times 1 and 2) for a lone
agent, both dispatching successfully (infection is a no-op with a single
occupant). -/
theorem dispatch_monotone_witness :
    (let agentH : AgentR := ⟨"H", "I", some "A", ["A"], none⟩;
    let locA : LocationR := ⟨"A", {"H"}⟩;
    let e1 : Event := ⟨1, EventType.Infect, "H"⟩;
    let e2 : Event := ⟨2, EventType.Infect, "H"⟩;
    let s : ModelState := ⟨[("H", agentH)], [("A", locA)], [], 0, [e1, e2], []⟩;
    let s1 : ModelState := ⟨[("H", agentH)], [("A", locA)], [], 1, [e2], []⟩;
    let s2 : ModelState := ⟨[("H", agentH)], [("A", locA)], [], 2, [], []⟩;
    s1.t ≤ s2.t ∧
    (∃ f1 f2 rest, s.queue = f1 :: f2 :: rest ∧ s1.t = f1.t ∧ s2.t = f2.t ∧
      Event.le f1 f2) ∧
    (∀ inputs s', runSteps s inputs = some s' →
      s'.queue = s.queue.drop inputs.length ∧
      (s.queue.take inputs.length).Sorted Event.le ∧
      (s.queue.take inputs.length).Pairwise (fun e f => e.t ≤ f.t))) := by
  intro agentH locA e1 e2 s s1 s2
  have hsort : s.queue.Sorted Event.le := by
    refine List.sorted_cons.mpr ⟨?_, List.sorted_singleton _⟩
    intro b hb
    simp only [List.mem_singleton] at hb
    subst hb
    exact Or.inl (by norm_num)
  exact dispatch_monotone s s1 s2 0 0 "x" "y" "x" "y" hsort (by rfl) (by rfl)

/-! ## Claim C7 — the potential-infection handler -/

/-- C7: `do_potential_infection(agent_id)` with the two sampled occupants
`(c1, c2)` explicit (contract: distinct members of the occupant set of the
agent's location): it is an exact no-op when fewer than two occupants share
the location; the source agent, if sampled, is excluded and the remaining
sampled occupant is the candidate; with at least two occupants the candidate
flips from `'S'` to `'I'` iff it was `'S'` (all other agents untouched,
nothing else in the state modified), and an agent whose state is not `'S'`
never has its record changed. -/
theorem potential_infection_behaviour (s : ModelState) (agent c1 c2 : String)
    (aObj : AgentR) (locId : String) (locObj : LocationR)
    (halk : alookup s.agents agent = some aObj)
    (hloc : aObj.location = some locId)
    (hL : alookup s.locations locId = some locObj) :
    (locObj.occupants.card < 2 → s.doPotentialInfect agent c1 c2 = some s) ∧
    ((if c1 = agent then c2 else c1) = c1 ∨ (if c1 = agent then c2 else c1) = c2) ∧
    (c1 ≠ c2 → (c1 = agent ∨ c2 = agent) → (if c1 = agent then c2 else c1) ≠ agent) ∧
    (¬ locObj.occupants.card < 2 →
      c1 ∈ locObj.occupants → c2 ∈ locObj.occupants → c1 ≠ c2 →
      ∀ candObj, alookup s.agents (if c1 = agent then c2 else c1) = some candObj →
        (candObj.infected = "S" →
          s.doPotentialInfect agent c1 c2 = some { s with agents := aset s.agents (if c1 = agent then c2 else c1) ({ candObj with infected := "I" }) }) ∧
        (candObj.infected ≠ "S" →
          s.doPotentialInfect agent c1 c2 = some s)) ∧
    (∀ s' x X, s.doPotentialInfect agent c1 c2 = some s' →
      alookup s.agents x = some X → X.infected ≠ "S" →
      alookup s'.agents x = some X) := by
  have hunfold : s.doPotentialInfect agent c1 c2 =
      (if locObj.occupants.card < 2 then some s
        else
          match alookup s.agents (if c1 = agent then c2 else c1) with
          | none => none
          | some candObj =>
            if candObj.infected = "S" then
              some { s with agents := aset s.agents (if c1 = agent then c2 else c1) ({ candObj with infected := "I" }) }
            else some s) := by
    rw [ModelState.doPotentialInfect, halk]
    dsimp only
    rw [hloc]
    dsimp only
    rw [hL]
  refine ⟨?_, ?_, ?_, ?_, ?_⟩
  · intro hcard
    rw [hunfold, if_pos hcard]
  · by_cases h : c1 = agent
    · rw [if_pos h]; exact Or.inr rfl
    · rw [if_neg h]; exact Or.inl rfl
  · intro hcc hor
    by_cases h : c1 = agent
    · rw [if_pos h]
      intro hcontra
      exact hcc (h.trans hcontra.symm)
    · rw [if_neg h]
      rcases hor with h2 | h2
      · exact absurd h2 h
      · intro hcontra
        exact hcc (hcontra.trans h2.symm)
  · intro hcard _ _ _ candObj hcand
    rw [hunfold, if_neg hcard, hcand]
    dsimp only
    constructor
    · intro hS
      rw [if_pos hS]
    · intro hS
      rw [if_neg hS]
  · intro s' x X hrun hx hXS
    rw [hunfold] at hrun
    by_cases hcard : locObj.occupants.card < 2
    · rw [if_pos hcard] at hrun
      rw [← Option.some.inj hrun]
      exact hx
    · rw [if_neg hcard] at hrun
      cases hcand : alookup s.agents (if c1 = agent then c2 else c1) with
      | none => rw [hcand] at hrun; exact absurd hrun (by simp)
      | some candObj =>
        rw [hcand] at hrun
        dsimp only at hrun
        by_cases hS : candObj.infected = "S"
        · rw [if_pos hS] at hrun
          rw [← Option.some.inj hrun]
          show alookup (aset s.agents (if c1 = agent then c2 else c1) _) x = some X
          rw [alookup_aset]
          by_cases hxc : x = (if c1 = agent then c2 else c1)
          · exfalso
            rw [← hxc] at hcand
            rw [hx] at hcand
            exact hXS ((Option.some.inj hcand) ▸ hS)
          · rw [if_neg hxc]
            exact hx
        · rw [if_neg hS] at hrun
          rw [← Option.some.inj hrun]
          exact hx

/-- Witness for C7, exercising both sides: a lone agent `"H"` at `"A"`
(fewer than two occupants — the call is an exact no-op), and infected
`"H"` with susceptible `"V"` co-located at `"C"` with the sample drawing
both of them. -/
theorem potential_infection_behaviour_witness :
    (let agentL : AgentR := ⟨"H", "I", some "A", ["A"], none⟩;
    let sLone : ModelState :=
      ⟨[("H", agentL)], [("A", ⟨"A", {"H"}⟩)], [], 0, [], []⟩;
    sLone.doPotentialInfect "H" "x" "y" = some sLone) ∧
    (let agentH : AgentR := ⟨"H", "I", some "C", ["C"], none⟩;
    let agentV : AgentR := ⟨"V", "S", some "C", ["C"], none⟩;
    let locC : LocationR := ⟨"C", {"H", "V"}⟩;
    let s : ModelState :=
      ⟨[("H", agentH), ("V", agentV)], [("C", locC)], [], 0, [], []⟩;
    (locC.occupants.card < 2 → s.doPotentialInfect "H" "H" "V" = some s) ∧
    ((if ("H" : String) = "H" then "V" else "H") = "H" ∨
      (if ("H" : String) = "H" then "V" else "H") = "V") ∧
    (("H" : String) ≠ "V" → ("H" = "H" ∨ "V" = "H") →
      (if ("H" : String) = "H" then "V" else "H") ≠ "H") ∧
    (¬ locC.occupants.card < 2 →
      "H" ∈ locC.occupants → "V" ∈ locC.occupants → ("H" : String) ≠ "V" →
      ∀ candObj,
        alookup s.agents (if "H" = "H" then "V" else "H") = some candObj →
        (candObj.infected = "S" →
          s.doPotentialInfect "H" "H" "V" = some { s with agents := aset s.agents (if "H" = "H" then "V" else "H") ({ candObj with infected := "I" }) }) ∧
        (candObj.infected ≠ "S" →
          s.doPotentialInfect "H" "H" "V" = some s)) ∧
    (∀ s' x X, s.doPotentialInfect "H" "H" "V" = some s' →
      alookup s.agents x = some X → X.infected ≠ "S" →
      alookup s'.agents x = some X)) := by
  constructor
  · intro agentL sLone
    exact (potential_infection_behaviour sLone "H" "x" "y" agentL "A"
      ⟨"A", {"H"}⟩ rfl rfl (by rfl)).1 (by decide)
  · intro agentH agentV locC s
    exact potential_infection_behaviour s "H" "H" "V" agentH "C" locC rfl rfl
      (by rfl)

/-! ## Claim C3 — layered context resolution -/

/-- The transition-probability fixture of the repository's tests
(`src/tests/test_abm.py` lines 14–25), with the decimal weights as exact
rationals. -/
def moveProbsFixture : List (List String × List (String × ℚ)) :=
  [ (["S", "A"], [("B", 7/10), ("C", 3/10)]),
    (["S", "B"], [("A", 4/10), ("C", 6/10)]),
    (["S", "C"], [("A", 8/10), ("B", 2/10)]),
    (["S", "B", "A"], [("A", 2/10), ("C", 8/10)]),
    (["S", "C", "A"], [("A", 4/10), ("B", 6/10)]),
    (["S", "A", "B"], [("B", 1/10), ("C", 9/10)]),
    (["S", "C", "B"], [("A", 9/10), ("B", 1/10)]),
    (["S", "A", "C"], [("B", 7/10), ("C", 3/10)]),
    (["S", "B", "C"], [("A", 8/10), ("C", 2/10)]) ]

/-- C3: resolution scans layers newest-first and returns the sampler of the
first layer containing an exact match of the key (characterized by the
least layer index holding the key — no prefix matching is involved);
`next_location` builds the context key as the infection state followed by
the history most-recent-first, so an agent with state `'S'` and history
`[B, A]` (most-recent-last) looks up `('S','A','B')`, hitting the
longer-context entry of the test fixture rather than the `('S','A')` one;
and when two layers both define a key, the later-added layer wins. -/
theorem mover_resolution (layers : List MoverLayer) (key : List String)
    (co : CompiledOutcomes) :
    (resolveKey layers key = some co ↔
      ∃ i, i < layers.length ∧ layerFind (layers.getD i []) key = some co ∧
        ∀ j, j < i → layerFind (layers.getD j []) key = none) ∧
    (∀ a : AgentR, a.infected = "S" → a.history = ["B", "A"] →
      a.state = ["S", "A", "B"]) ∧
    (resolveKey (addMoveProbs [] moveProbsFixture) ["S", "A", "B"]
      = some (CompiledOutcomes.compile [("B", 1/10), ("C", 9/10)])) ∧
    (∀ (k : List String) (t1 t2 : List (String × ℚ)),
      resolveKey (addMoveProbs (addMoveProbs [] [(k, t1)]) [(k, t2)]) k
        = some (CompiledOutcomes.compile t2)) ∧
    (∀ a : AgentR, a.infected = "S" → a.history = ["B", "A"] → ∀ r : ℚ,
      nextLocation (addMoveProbs [] moveProbsFixture) a r
        = (CompiledOutcomes.compile [("B", 1/10), ("C", 9/10)]).weightedChoiceAt r) := by
  have hfix : resolveKey (addMoveProbs [] moveProbsFixture) ["S", "A", "B"]
      = some (CompiledOutcomes.compile [("B", 1/10), ("C", 9/10)]) := by
    simp only [addMoveProbs, moveProbsFixture, List.map_cons, List.map_nil]
    rw [resolveKey]
    norm_num [layerFind]
    have hAB : ¬(("A" : String) = "B" ∧ ("B" : String) = "A") := by simp
    have hAC : ¬(("A" : String) = "C" ∧ ("B" : String) = "A") := by simp
    rw [if_neg hAB, if_neg hAC]
  have hstate : ∀ a : AgentR, a.infected = "S" → a.history = ["B", "A"] →
      a.state = ["S", "A", "B"] := by
    intro a h1 h2
    rw [AgentR.state, h1, h2]
    rfl
  refine ⟨?_, hstate, hfix, ?_, ?_⟩
  · induction layers with
    | nil =>
      simp [resolveKey]
    | cons layer older ih =>
      rw [resolveKey]
      cases hf : layerFind layer key with
      | some c =>
        constructor
        · intro h
          refine ⟨0, by simp, ?_, by omega⟩
          rw [List.getD_cons_zero, hf, Option.some.inj h]
        · intro ⟨i, hi, hfind, hmin⟩
          cases i with
          | zero =>
            rw [List.getD_cons_zero, hf] at hfind
            rw [hfind]
          | succ i =>
            exact absurd ((List.getD_cons_zero ▸ hmin 0 (Nat.succ_pos i))) (by simp [hf])
      | none =>
        rw [ih]
        constructor
        · intro ⟨i, hi, hfind, hmin⟩
          refine ⟨i + 1, by simpa using hi, ?_, ?_⟩
          · rwa [List.getD_cons_succ]
          · intro j hj
            cases j with
            | zero => rw [List.getD_cons_zero]; exact hf
            | succ j => rw [List.getD_cons_succ]; exact hmin j (by omega)
        · intro ⟨i, hi, hfind, hmin⟩
          cases i with
          | zero =>
            rw [List.getD_cons_zero, hf] at hfind
            exact absurd hfind (by simp)
          | succ i =>
            refine ⟨i, by simpa using hi, by rwa [List.getD_cons_succ] at hfind, ?_⟩
            intro j hj
            have := hmin (j + 1) (by omega)
            rwa [List.getD_cons_succ] at this
  · intro k t1 t2
    show (match layerFind [(k, CompiledOutcomes.compile t2)] k with
      | some co => some co
      | none => resolveKey (addMoveProbs [] [(k, t1)]) k) = _
    rw [layerFind, if_pos rfl]
  · intro a h1 h2 r
    rw [nextLocation, hstate a h1 h2, hfix]

/-- Witness for C3, instantiated at the fixture layer, the reversed-history
key, its compiled table, and the concrete 2-history agent of the tests. -/
theorem mover_resolution_witness :
    (let layers := addMoveProbs [] moveProbsFixture;
    let key : List String := ["S", "A", "B"];
    let co := CompiledOutcomes.compile [("B", 1/10), ("C", 9/10)];
    let harold : AgentR := ⟨"Harold", "S", some "B", ["B", "A"], some 2⟩;
    (resolveKey layers key = some co ↔
      ∃ i, i < layers.length ∧ layerFind (layers.getD i []) key = some co ∧
        ∀ j, j < i → layerFind (layers.getD j []) key = none) ∧
    (harold.state = ["S", "A", "B"]) ∧
    (resolveKey layers key = some co) ∧
    (resolveKey (addMoveProbs (addMoveProbs [] [(key, [("B", 1)])])
        [(key, [("C", 1)])]) key = some (CompiledOutcomes.compile [("C", 1)])) ∧
    (nextLocation layers harold (1/2) = co.weightedChoiceAt (1/2))) := by
  intro layers key co harold
  obtain ⟨h1, h2, h3, h4, h5⟩ :=
    mover_resolution layers key co
  exact ⟨h1, h2 harold rfl rfl, h3, h4 key [("B", 1)] [("C", 1)],
    h5 harold rfl rfl (1/2)⟩

/-! ## Claim C4 — compile-time vs sample-time failure

The claim asserts that compiling a table with non-positive total weight
fails with `InvalidDistributionError` at compile (layer-add) time.  The
code has no such check: `CompiledOutcomes.compile` performs no validation
at all (there is no error class and no raise anywhere in
`markov_mover.py` lines 16–21), so compilation of an all-zero or empty
table succeeds; the failure only surfaces later, inside
`weighted_choice`, as an `IndexError` when `self.outcomes[i]` is indexed
past the end.  `compile_nonpositive_cex` exhibits this on `{B: 0.0}`, and
also refutes the claim's unconditional "non-decreasing cumulative-weight
sequence for strictly positive total" via a mixed-sign table. -/

/-- Counterexample for C4: compiling `{B: 0}` (total `0 ≤ 0`) raises
nothing — it returns a table with `total = 0` — and the failure happens at
sample time instead (`weighted_choice` hits an out-of-range index, `none`);
and a mixed-sign table with strictly positive total has a decreasing cdf. -/
theorem compile_nonpositive_cex :
    (CompiledOutcomes.compile [("B", 0)]).total = 0 ∧
    (CompiledOutcomes.compile [("B", 0)]).weightedChoiceAt (1/2) = none ∧
    (CompiledOutcomes.compile []).total = 0 ∧
    (CompiledOutcomes.compile []).weightedChoiceAt (1/2) = none ∧
    0 < (CompiledOutcomes.compile [("A", 2), ("B", -1)]).total ∧
    ¬ (CompiledOutcomes.compile [("A", 2), ("B", -1)]).cdf.Sorted (· ≤ ·) := by
  have hB : CompiledOutcomes.compile [("B", 0)] = ⟨["B"], [0], 0⟩ := by
    simp [CompiledOutcomes.compile, CompiledOutcomes.compileFrom]
  have hM : CompiledOutcomes.compile [("A", 2), ("B", -1)] = ⟨["A", "B"], [2, 1], 1⟩ := by
    simp [CompiledOutcomes.compile, CompiledOutcomes.compileFrom]
    norm_num
  refine ⟨by rw [hB], ?_, rfl, rfl, ?_, ?_⟩
  · rw [hB, CompiledOutcomes.weightedChoiceAt]
    show List.get? ["B"] (bisect [0] (1/2 * 0)) = none
    rw [mul_zero]
    rfl
  · rw [hM]
    norm_num
  · rw [hM]
    intro hcontra
    have h21 := (List.sorted_cons.mp hcontra).1 1 (by simp)
    norm_num at h21

/-- C4 as amended: compiling any table always succeeds, with `total` the
sum of the weights; for non-negative weights the cumulative sequence is
non-decreasing; and when the total is non-positive the failure is deferred
to sample time — every draw returns an out-of-range index error (`none`). -/
theorem compile_failure_at_sample_time (p : List (String × ℚ))
    (hw : ∀ w ∈ p.map Prod.snd, 0 ≤ w) :
    (CompiledOutcomes.compile p).total = (p.map Prod.snd).sum ∧
    (CompiledOutcomes.compile p).cdf.Sorted (· ≤ ·) ∧
    ((CompiledOutcomes.compile p).total ≤ 0 → ∀ r : ℚ,
      (CompiledOutcomes.compile p).weightedChoiceAt r = none) := by
  refine ⟨compile_total p, compile_cdf_sorted p hw, ?_⟩
  intro htot r
  have htot0 : (CompiledOutcomes.compile p).total = 0 := by
    have hsum : 0 ≤ (p.map Prod.snd).sum := List.sum_nonneg hw
    rw [compile_total p]
    rw [compile_total p] at htot
    linarith
  have hcdf0 : ∀ y ∈ (CompiledOutcomes.compile p).cdf, y = 0 := by
    intro y hy
    have := compile_cdf_nonneg p hw y hy
    rw [htot0] at this
    linarith [this.1, this.2]
  rw [CompiledOutcomes.weightedChoiceAt]
  have hx : r * (CompiledOutcomes.compile p).total = 0 := by
    rw [htot0, mul_zero]
  rw [hx]
  have hspec := bisect_spec (CompiledOutcomes.compile p).cdf 0
    (compile_cdf_sorted p hw)
  have hlen : bisect (CompiledOutcomes.compile p).cdf 0 =
      (CompiledOutcomes.compile p).cdf.length := by
    rcases Nat.lt_or_ge (bisect (CompiledOutcomes.compile p).cdf 0)
      (CompiledOutcomes.compile p).cdf.length with h | h
    · exfalso
      have hgt := hspec.2.2 _ (le_refl _) h
      have hmem : (CompiledOutcomes.compile p).cdf.getD
          (bisect (CompiledOutcomes.compile p).cdf 0) 0 = 0 := by
        apply hcdf0
        rw [List.getD_eq_getElem?_getD, List.getElem?_eq_getElem h]
        exact List.getElem_mem h
      rw [hmem] at hgt
      exact absurd hgt (lt_irrefl 0)
    · omega
  rw [hlen]
  apply List.get?_eq_none.mpr
  rw [compile_outcomes, compile_cdf_length, List.length_map]

/-- Witness for the amended C4, at the all-zero one-outcome table `{B: 0}`
and draw `r = 1/2`. -/
theorem compile_failure_at_sample_time_witness :
    (CompiledOutcomes.compile [("B", 0)]).total
        = ([("B", (0:ℚ))].map Prod.snd).sum ∧
    (CompiledOutcomes.compile [("B", 0)]).cdf.Sorted (· ≤ ·) ∧
    ((CompiledOutcomes.compile [("B", 0)]).total ≤ 0 → ∀ r : ℚ,
      (CompiledOutcomes.compile [("B", 0)]).weightedChoiceAt r = none) := by
  refine compile_failure_at_sample_time [("B", 0)] ?_
  intro w hwmem
  simp at hwmem
  rw [hwmem]

/-! ## Claim C9 — the event index

`add_event` (`mkmover/abm.py` lines 174–177) does push the event and
record it in `event_map[agent]`.  But no code in the repository ever
removes anything from `event_map`: the only dispatcher,
`handle_next_event` (`abm_skele.py` lines 170–176), pops the queue and
touches no index (its `ABM` has none).  So after a dispatch the popped
event is still recorded, and the claimed two-way invariant
"pending in the queue iff recorded in the index" fails. -/

/-- The one-directional invariant that does hold: every event pending in
the queue is recorded in `event_map` under its target agent. -/
def QueueRecorded (s : ModelState) : Prop :=
  ∀ e ∈ s.queue, e ∈ emLookup s.eventMap e.agent

/-- Counterexample for C9: schedule one Infect event for a lone agent and
dispatch it.  The dispatch succeeds, the queue is empty, but the event is
still recorded in `event_map["H"]` — the "iff" direction from index to
queue is false after any dispatch, because dispatch does not remove the
event from the index. -/
theorem event_index_iff_cex :
    (let agentH : AgentR := ⟨"H", "I", some "A", ["A"], none⟩;
    let locA : LocationR := ⟨"A", {"H"}⟩;
    let e : Event := ⟨1, EventType.Infect, "H"⟩;
    let s1 := (⟨[("H", agentH)], [("A", locA)], [], 0, [], []⟩ :
      ModelState).addEvent 1 EventType.Infect "H";
    ∃ s2, s1.handleNextEvent 0 "x" "y" = some s2 ∧
      s2.queue = [] ∧ e ∈ emLookup s2.eventMap "H" ∧ e ∉ s2.queue) := by
  intro agentH locA e s1
  refine ⟨⟨[("H", agentH)], [("A", locA)], [], 1, [],
    [("H", insert e ∅)]⟩, by rfl, rfl, ?_, ?_⟩
  · show e ∈ (alookup [("H", insert e ∅)] "H").getD ∅
    rw [alookup_cons, if_pos rfl]
    exact Finset.mem_insert_self e ∅
  · exact List.not_mem_nil e

/-- C9 as amended: `add_event(t, ty, agent)` constructs the event, pushes
it onto the queue, and records it in `event_map[agent]`; dispatching never
removes anything from `event_map`; and the invariant that is actually
maintained by these operations is one-directional — every event in the
queue is recorded in the index for its target agent. -/
theorem event_index_records_queue (s : ModelState) (t : ℚ) (ty : EventType)
    (agent : String) (hrec : QueueRecorded s) :
    ((⟨t, ty, agent⟩ : Event) ∈ (s.addEvent t ty agent).queue ∧
      (⟨t, ty, agent⟩ : Event) ∈ emLookup (s.addEvent t ty agent).eventMap agent ∧
      QueueRecorded (s.addEvent t ty agent)) ∧
    (∀ r c1 c2 s', s.handleNextEvent r c1 c2 = some s' →
      s'.eventMap = s.eventMap ∧ QueueRecorded s') := by
  constructor
  · refine ⟨?_, ?_, ?_⟩
    · exact mem_queueAdd.mpr (Or.inl rfl)
    · show (⟨t, ty, agent⟩ : Event) ∈
        (alookup (aset s.eventMap agent _) agent).getD ∅
      rw [alookup_aset_self]
      exact Finset.mem_insert_self _ _
    · intro f hf
      rcases mem_queueAdd.mp hf with hfe | hfq
      · subst hfe
        show _ ∈ (alookup (aset s.eventMap agent _) agent).getD ∅
        rw [alookup_aset_self]
        exact Finset.mem_insert_self _ _
      · have hrecf := hrec f hfq
        show f ∈ (alookup (aset s.eventMap agent _) f.agent).getD ∅
        rw [alookup_aset]
        by_cases hag : f.agent = agent
        · rw [if_pos hag]
          show f ∈ insert _ (emLookup s.eventMap agent)
          refine Finset.mem_insert_of_mem ?_
          rw [← hag]
          exact hrecf
        · rw [if_neg hag]
          exact hrecf
  · intro r c1 c2 s' hstep
    obtain ⟨e, rest, hq, hq', _, hmap, _, _⟩ :=
      handleNextEvent_char s s' r c1 c2 hstep
    refine ⟨hmap, ?_⟩
    intro f hf
    rw [hq'] at hf
    have : f ∈ s.queue := by
      rw [hq]
      exact List.mem_cons_of_mem e hf
    rw [hmap]
    exact hrec f this

/-- Witness for the amended C9: the initial (empty) state, scheduling one
Move event. -/
theorem event_index_records_queue_witness :
    ((⟨1, EventType.Move, "H"⟩ : Event)
        ∈ (ModelState.init.addEvent 1 EventType.Move "H").queue ∧
      (⟨1, EventType.Move, "H"⟩ : Event)
        ∈ emLookup (ModelState.init.addEvent 1 EventType.Move "H").eventMap "H" ∧
      QueueRecorded (ModelState.init.addEvent 1 EventType.Move "H")) ∧
    (∀ r c1 c2 s', ModelState.init.handleNextEvent r c1 c2 = some s' →
      s'.eventMap = ModelState.init.eventMap ∧ QueueRecorded s') :=
  event_index_records_queue ModelState.init 1 EventType.Move "H"
    (fun e he => absurd he (List.not_mem_nil e))

end Mkmover
